import Mathlib

/-!
# Verification of the multigrid V-cycle illumination solver (`ipVcycle`)

Shallow embedding of `src/src/ip/src/ipVcycle.cc` (Torch `ipVcycle`).

Conventions used throughout:
* `double` values are embedded as exact rationals `ℚ` for the solver pipeline
  (all of its arithmetic is field arithmetic), and as reals `ℝ` for the
  postprocessor statistics, whose standard deviation needs a square root.
* 2-D tensors (`DoubleTensor(h, w, 1)`) are embedded as dimension sizes plus a
  total value function `ℕ → ℕ → ℚ`.  Strides are abstracted away: the buffer
  index `y * stride_h + x * stride_w` is the pair `(y, x)`.  Memory that the
  source allocates but never initializes is modelled as `0`.
* The instance fields `height_` / `width_` that `ipVcycle` mutates around the
  recursion are threaded as an explicit `VState` value.
* The helper routines declared in `ip/multigrid.h` (`buildOperator`,
  `gaussSeidel`, `myMultiply`, `restriction`, `project`) and the LAPACK
  routine `dgesv_` are not part of the excerpted source; they are modelled
  from the specification (each such definition carries a doc comment starting
  with `Modelled from the spec:`).
* In `mgv` the source recurses on `level + 1` and tests `level == n_grids_-1`
  for the terminal branch; for `level > n_grids_-1` the source would recurse
  without bound, which a total Lean function cannot reproduce, so the model
  recurses on the gas value `n_grids_ - 1 - level` (the number of coarsening
  steps still to take).  On every level reachable from the entry point
  (`level ≤ n_grids_-1`, since `processInput` starts at level 0) the two
  branch conditions agree exactly.
-/

/-- A 2-D double tensor `DoubleTensor(h, w, 1)`: dimensions plus value function. -/
structure DoubleTensor where
  h : ℕ
  w : ℕ
  data : ℕ → ℕ → ℚ

/-- The instance-level mutable dimension fields `height_` and `width_`. -/
structure VState where
  h : ℕ
  w : ℕ
deriving DecidableEq, Repr

/-- The only fatal error in the solver: `error(...)` fired on a nonzero
`dgesv_` status (ipVcycle.cc line 226). -/
inductive SolveErr where
  | singular
deriving DecidableEq, Repr

/-- Tensor datatypes, as far as `checkInput` distinguishes them. -/
inductive DType where
  | short
  | int
  | double
deriving DecidableEq, Repr

/-- Metadata of a tensor as inspected by `checkInput` / `allocateOutput`:
number of dimensions, datatype, and the three sizes. -/
structure TensorMeta where
  ndim : ℕ
  dtype : DType
  size0 : ℕ
  size1 : ℕ
  size2 : ℕ
deriving DecidableEq, Repr

/-- Embeds `ipVcycle::checkInput` (ipVcycle.cc lines 54-65): accept only 3-D
tensors of `Short` type.  Note that no channel-count test happens here. -/
def checkInput (t : TensorMeta) : Bool :=
  if t.ndim ≠ 3 ∨ t.dtype ≠ DType.short then false else true

/-- Embeds `ipVcycle::allocateOutput` (ipVcycle.cc lines 70-94).  `prev` is
the metadata of `m_output[0]` when an output is already allocated (`none`
models `m_output == 0`).  The allocation branch returns `true` immediately;
the channel test `input.size(2) != 1` is reached only when the existing
output already matches the input dimensions. -/
def allocateOutput (prev : Option TensorMeta) (t : TensorMeta) :
    Bool × Option TensorMeta :=
  match prev with
  | none => (true, some ⟨3, DType.short, t.size0, t.size1, t.size2⟩)
  | some o =>
    if o.ndim ≠ 3 ∨ o.size0 ≠ t.size0 ∨ o.size1 ≠ t.size1 ∨ o.size2 ≠ t.size2 then
      (true, some ⟨3, DType.short, t.size0, t.size1, t.size2⟩)
    else if t.size2 ≠ 1 then (false, prev)
    else (true, prev)

/-- Modelled from the spec: the framework entry point (`ipCore::process`, not
part of the excerpted source) runs the input check, then output allocation,
and starts grid work (`processInput`) only if both returned `true`. -/
def vcycleAccepts (prev : Option TensorMeta) (t : TensorMeta) : Bool :=
  checkInput t && (allocateOutput prev t).1

/-- Modelled from the spec: the discretized operator is
`identity + lambda * regularizer(type)` where the regularizer couples each
interior pixel to its four nearest neighbours and boundary rows receive
identity coupling only (Dirichlet condition).  The spec leaves the exact
stencil weights of the `type` variants open, so the model uses the standard
4-neighbour graph Laplacian for every `type`: diagonal `1 + 4λ`, the four
neighbours `-λ`.  Pixel `(y, x)` has row-major index `y * w + x`.
`buildOperator` in the source assembles exactly this matrix at the coarsest
grid; `opEntry i j` is its entry at row `i`, column `j`. -/
def opEntry (hgt wdt : ℕ) (lam : ℚ) (i j : ℕ) : ℚ :=
  let y := i / wdt
  let x := i % wdt
  if y = 0 ∨ y = hgt - 1 ∨ x = 0 ∨ x = wdt - 1 then
    (if j = i then 1 else 0)
  else if j = i then 1 + 4 * lam
  else if j = i - wdt ∨ j = i + wdt ∨ j = i - 1 ∨ j = i + 1 then -lam
  else 0

/-- Modelled from the spec: the matrix-free multiplier applies the same
stencil as `opEntry` without materializing a matrix, so that
`myMultiply lam x` reproduces what the assembled matrix would compute.
Positions outside the grid model the untouched freshly allocated buffer
(zero). -/
def myMultiply (hgt wdt : ℕ) (lam : ℚ) (x : ℕ → ℕ → ℚ) : ℕ → ℕ → ℚ :=
  fun y c =>
    if y < hgt ∧ c < wdt then
      if y = 0 ∨ y = hgt - 1 ∨ c = 0 ∨ c = wdt - 1 then x y c
      else (1 + 4 * lam) * x y c -
        lam * (x (y - 1) c + x (y + 1) c + x y (c - 1) + x y (c + 1))
    else 0

/-- The interior pixels of an `hgt × wdt` grid in row-major (classic
Gauss-Seidel) order. -/
def interiorPixels (hgt wdt : ℕ) : List (ℕ × ℕ) :=
  ((List.range hgt).filter (fun y => 0 < y ∧ y + 1 < hgt)).flatMap
    (fun y => ((List.range wdt).filter (fun x => 0 < x ∧ x + 1 < wdt)).map
      (fun x => (y, x)))

/-- One in-place Gauss-Seidel update of pixel `p`, driving its local residual
to zero for the `opEntry` stencil: the updated value solves
`(1+4λ)·v - λ·(sum of current neighbours) = b p`. -/
def gsUpdate (lam : ℚ) (b : ℕ → ℕ → ℚ) (d : ℕ → ℕ → ℚ) (p : ℕ × ℕ) :
    ℕ → ℕ → ℚ :=
  fun y x =>
    if y = p.1 ∧ x = p.2 then
      (b p.1 p.2 +
        lam * (d (p.1 - 1) p.2 + d (p.1 + 1) p.2 + d p.1 (p.2 - 1) + d p.1 (p.2 + 1))) /
        (1 + 4 * lam)
    else d y x

/-- Modelled from the spec: the smoother `gaussSeidel(x, b, rho, lambda,
type)` performs Gauss-Seidel relaxation sweeps over the interior pixels in
row-major order, each update using already-updated neighbour values, with
boundary pixels excluded from update.  The spec leaves the sweep count open
("one or more sweeps", exact constant not determinable); the model performs
one sweep. -/
def gaussSeidel (hgt wdt : ℕ) (x b : ℕ → ℕ → ℚ) (lam : ℚ) : ℕ → ℕ → ℚ :=
  (interiorPixels hgt wdt).foldl (fun d p => gsUpdate lam b d p) x

/-- Modelled from the spec: full-weighting restriction.  Each coarse pixel
`(i, j)` is the weighted average of the fine 3×3 neighbourhood of
`(2i, 2j)`: centre 1/4, edges 1/8, diagonals 1/16.  Fine positions outside
the grid contribute 0 (Dirichlet boundary). -/
def restriction (fh fw : ℕ) (f : ℕ → ℕ → ℚ) : ℕ → ℕ → ℚ :=
  fun i j =>
    let g : ℤ → ℤ → ℚ := fun y x =>
      if 0 ≤ y ∧ y < (fh : ℤ) ∧ 0 ≤ x ∧ x < (fw : ℤ) then f y.toNat x.toNat else 0
    (1/4) * g (2*i) (2*j) +
    (1/8) * (g (2*i - 1) (2*j) + g (2*i + 1) (2*j) + g (2*i) (2*j - 1) + g (2*i) (2*j + 1)) +
    (1/16) * (g (2*i - 1) (2*j - 1) + g (2*i - 1) (2*j + 1) +
              g (2*i + 1) (2*j - 1) + g (2*i + 1) (2*j + 1))

/-- Modelled from the spec: bilinear prolongation (the source calls it
`project`).  Coarse points map exactly to even fine points; odd fine rows and
columns are interpolated from the nearest coarse values, out-of-range coarse
values contributing 0. -/
def project (ch cw : ℕ) (c : ℕ → ℕ → ℚ) : ℕ → ℕ → ℚ :=
  fun y x =>
    let g : ℕ → ℕ → ℚ := fun i j => if i < ch ∧ j < cw then c i j else 0
    if y % 2 = 0 then
      if x % 2 = 0 then g (y / 2) (x / 2)
      else (g (y / 2) (x / 2) + g (y / 2) (x / 2 + 1)) / 2
    else
      if x % 2 = 0 then (g (y / 2) (x / 2) + g (y / 2 + 1) (x / 2)) / 2
      else (g (y / 2) (x / 2) + g (y / 2) (x / 2 + 1) +
            g (y / 2 + 1) (x / 2) + g (y / 2 + 1) (x / 2 + 1)) / 4

/-- Finds the first row whose leading coefficient is nonzero, returning it
together with the remaining rows; `none` when every leading coefficient is
zero (degenerate pivot). -/
def findPivot : List (List ℚ) → Option (List ℚ × List (List ℚ))
  | [] => none
  | r :: rs =>
    if r.headD 0 ≠ 0 then some (r, rs)
    else match findPivot rs with
      | none => none
      | some (p, rest) => some (p, r :: rest)

/-- Subtracts the multiple of the pivot row that clears the leading
coefficient of `r`, then drops that leading entry. -/
def elimRow (p r : List ℚ) : List ℚ :=
  (List.zipWith (fun a c => a - (r.headD 0 / p.headD 0) * c) r p).tail

/-- Back-substitution step: given the pivot row `[c0, c1, …, ck, rhs]` and the
solution `xs` of the remaining variables, solves for the leading variable. -/
def backSub (p : List ℚ) (xs : List ℚ) : ℚ :=
  (p.tail.getLastD 0 - (List.zipWith (fun c v => c * v) p.tail.dropLast xs).sum) /
    p.headD 0

/-- Modelled from the spec: the dense direct solver is an LU-style dense
factorization (Gaussian elimination with pivoting) on the augmented system,
failing with a singular-system error when a degenerate pivot makes the
factorization impossible.  `n` is the number of remaining equations. -/
def gaussSolve : ℕ → List (List ℚ) → Option (List ℚ)
  | 0, _ => some []
  | n + 1, rows =>
    match findPivot rows with
    | none => none
    | some (p, rest) =>
      match gaussSolve n (rest.map (elimRow p)) with
      | none => none
      | some xs => some (backSub p xs :: xs)

/-- Modelled from the spec: the LAPACK primitive `dgesv_` solving the dense
`n × n` system `A · x = b`; returns the solution vector together with the
`info` status, which is `0` on success and positive when the factorization
hits a degenerate pivot (singular system), in which case the right-hand side
is returned unchanged. -/
def dgesv (n : ℕ) (A : ℕ → ℕ → ℚ) (b : ℕ → ℚ) : (ℕ → ℚ) × ℤ :=
  match gaussSolve n ((List.range n).map
      (fun i => (List.range n).map (fun j => A i j) ++ [b i])) with
  | some xs => (fun i => xs.getD i 0, 0)
  | none => (b, 1)

/-- Embeds the boundary-forcing loop of the terminal branch of `ipVcycle::mgv`
(ipVcycle.cc lines 228-239), including its boundary condition exactly as
written in the source:
`(x == 0) || (x == width-1) || (y == 0) || (y == width-1)` — the last
comparison is against `width`, not `height`. -/
def setBoundaryZero (height width : ℕ) (f : ℕ → ℕ → ℚ) : ℕ → ℕ → ℚ :=
  fun y x =>
    if y < height ∧ x < width ∧ (x = 0 ∨ x = width - 1 ∨ y = 0 ∨ y = width - 1) then 0
    else f y x

/-- Embeds `ipVcycle::mgv` (ipVcycle.cc lines 180-316), with the remaining
number of coarsening steps `gas = n_grids_ - 1 - level` as the recursion
argument (see the header comment).  `gas = 0` is the coarsest-level branch
(`level == n_grids_-1`): assemble the dense operator for the current
`width_ × height_` grid, solve it against `b` with `dgesv_`, signal the fatal
`error(...)` when `info != 0`, and run the boundary-forcing loop.  Otherwise:
pre-smooth, compute the residual `b - A·x` over `b`'s extent, restrict it,
halve `width_`/`height_`, recurse on a zero guess, prolong the correction,
double `width_`/`height_` back, add correction to the pre-smoothed guess over
the restored extent, and post-smooth the result tensor against `b`. -/
def mgvGas : ℕ → DoubleTensor → DoubleTensor → ℚ → VState →
    Except SolveErr (DoubleTensor × VState)
  | 0, _x, b, lam, st =>
    let n := st.w * st.h
    let solved := dgesv n (opEntry st.h st.w lam) (fun i => b.data (i / st.w) (i % st.w))
    if solved.2 ≠ 0 then Except.error SolveErr.singular
    else
      Except.ok
        (⟨st.h, st.w, setBoundaryZero b.h b.w (fun y x => solved.1 (y * st.w + x))⟩, st)
  | gas + 1, x, b, lam, st =>
    let x1 := gaussSeidel x.h x.w x.data b.data lam
    let temp0 := myMultiply x.h x.w lam x1
    let temp := fun y c => if y < b.h ∧ c < b.w then b.data y c - temp0 y c else temp0 y c
    let rhat : DoubleTensor := ⟨st.h / 2, st.w / 2, restriction st.h st.w temp⟩
    let st1 : VState := ⟨st.h / 2, st.w / 2⟩
    let zero : DoubleTensor := ⟨st1.h, st1.w, fun _ _ => 0⟩
    match mgvGas gas zero rhat lam st1 with
    | Except.error e => Except.error e
    | Except.ok (xhat, st2) =>
      let xcorr := project xhat.h xhat.w xhat.data
      let st3 : VState := ⟨st2.h * 2, st2.w * 2⟩
      let summed := fun y c => if y < st3.h ∧ c < st3.w then x1 y c + xcorr y c else 0
      Except.ok (⟨st.h, st.w, gaussSeidel st.h st.w summed b.data lam⟩, st3)

/-- Embeds `ipVcycle::mgv(x, b, lambda, level, type)`: `n` is the member
`n_grids_`, `st` the members `height_`/`width_`.  The diffusion `type`
selects among coupling variants whose exact weights the spec leaves open; the
modelled stencil is type-independent, so `type` does not appear as an
argument of the model. -/
def mgv (n : ℕ) (x b : DoubleTensor) (lam : ℚ) (level : ℕ) (st : VState) :
    Except SolveErr (DoubleTensor × VState) :=
  mgvGas (n - 1 - level) x b lam st

instance {ε α : Type} [DecidableEq ε] [DecidableEq α] : DecidableEq (Except ε α) := fun a b =>
  match a, b with
  | Except.error u, Except.error v =>
    if h : u = v then Decidable.isTrue (by rw [h])
    else Decidable.isFalse (by intro hc; exact h (Except.error.inj hc))
  | Except.error _, Except.ok _ => Decidable.isFalse (by intro hc; exact Except.noConfusion hc)
  | Except.ok _, Except.error _ => Decidable.isFalse (by intro hc; exact Except.noConfusion hc)
  | Except.ok u, Except.ok v =>
    if h : u = v then Decidable.isTrue (by rw [h])
    else Decidable.isFalse (by intro hc; exact h (Except.ok.inj hc))

/-- Written from the spec's words (testable property §8, used to compare the
code against): with `n_grids = 1` the result must equal a single direct solve
of the full-resolution assembled operator against the input image, with the
boundary pixels — first/last row, first/last column — then forced to exactly
0.  No smoothing, restriction or prolongation appears. -/
def specDirectSolve (b : DoubleTensor) (lam : ℚ) : Except SolveErr DoubleTensor :=
  let solved := dgesv (b.w * b.h) (opEntry b.h b.w lam) (fun i => b.data (i / b.w) (i % b.w))
  if solved.2 ≠ 0 then Except.error SolveErr.singular
  else
    Except.ok ⟨b.h, b.w, fun y x =>
      if y < b.h ∧ x < b.w ∧ (x = 0 ∨ x = b.w - 1 ∨ y = 0 ∨ y = b.h - 1) then 0
      else solved.1 (y * b.w + x)⟩

/-- Written from the spec's words (§4.1, recursive case, used to compare the
code against): pre-smooth the guess against `rhs`; residual = `rhs` minus the
matrix-free operator applied to the smoothed guess; restrict the residual to
half width and half height; recurse with a zero-filled guess at `level + 1`;
prolong the coarse correction; new estimate = pre-smoothed guess + prolonged
correction; post-smooth it against `rhs`; return it.  Dimensions are threaded
explicitly from `rhs`, never through mutable state. -/
def specVcycleRecursive (n : ℕ) (x b : DoubleTensor) (lam : ℚ) (level : ℕ) :
    Except SolveErr DoubleTensor :=
  let hgt := b.h
  let wdt := b.w
  let presmoothed := gaussSeidel hgt wdt x.data b.data lam
  let applied := myMultiply hgt wdt lam presmoothed
  let residual := fun y c => if y < hgt ∧ c < wdt then b.data y c - applied y c else applied y c
  let restricted : DoubleTensor := ⟨hgt / 2, wdt / 2, restriction hgt wdt residual⟩
  match mgv n ⟨hgt / 2, wdt / 2, fun _ _ => 0⟩ restricted lam (level + 1) ⟨hgt / 2, wdt / 2⟩ with
  | Except.error e => Except.error e
  | Except.ok (corr, _) =>
    let prolonged := project corr.h corr.w corr.data
    let summed := fun y c => if y < hgt ∧ c < wdt then presmoothed y c + prolonged y c else 0
    Except.ok ⟨hgt, wdt, gaussSeidel hgt wdt summed b.data lam⟩

/-- The `info` status that the single coarsest-level `dgesv_` call of a
V-cycle invocation reports: the descent (pre-smooth, residual, restrict)
repeated until the coarsest level, then the direct solve's status.  Mirrors
the data flow of `mgvGas` exactly. -/
def coarseInfoGas : ℕ → DoubleTensor → DoubleTensor → ℚ → VState → ℤ
  | 0, _x, b, lam, st =>
    (dgesv (st.w * st.h) (opEntry st.h st.w lam) (fun i => b.data (i / st.w) (i % st.w))).2
  | gas + 1, x, b, lam, st =>
    let x1 := gaussSeidel x.h x.w x.data b.data lam
    let temp0 := myMultiply x.h x.w lam x1
    let temp := fun y c => if y < b.h ∧ c < b.w then b.data y c - temp0 y c else temp0 y c
    let rhat : DoubleTensor := ⟨st.h / 2, st.w / 2, restriction st.h st.w temp⟩
    coarseInfoGas gas ⟨st.h / 2, st.w / 2, fun _ _ => 0⟩ rhat lam ⟨st.h / 2, st.w / 2⟩

/-- The coarsest-level `dgesv_` status of the invocation `mgv n x b lam level st`. -/
def coarseInfo (n : ℕ) (x b : DoubleTensor) (lam : ℚ) (level : ℕ) (st : VState) : ℤ :=
  coarseInfoGas (n - 1 - level) x b lam st

/-- Embeds the reflectance loop of `ipVcycle::processInput` (ipVcycle.cc
lines 144-158): border pixels get reflectance 1; otherwise, when the solved
light is near zero the reflectance is 1, else `image / light`.  The `IS_NEAR`
macro is not part of the excerpted source; modelled from the spec as being
within the epsilon tolerance 0.01 of the reference value. -/
def buildReflectance (height width : ℕ) (image light : ℕ → ℕ → ℚ) : ℕ → ℕ → ℚ :=
  fun y x =>
    if y = 0 ∨ y = height - 1 ∨ x = 0 ∨ x = width - 1 then 1
    else if |light y x - 0| ≤ 1 / 100 then 1
    else image y x / light y x

/-- The accumulated mean of `ipVcycle::cutExtremum` (ipVcycle.cc lines
338-347): the sum over all pixels divided by `wxh = width * height`. -/
noncomputable def meanOf (hgt wdt : ℕ) (f : ℕ → ℕ → ℝ) : ℝ :=
  (Finset.sum (Finset.range hgt) fun y => Finset.sum (Finset.range wdt) fun x => f y x) /
    ((hgt * wdt : ℕ) : ℝ)

/-- The denominator of the variance division of `ipVcycle::cutExtremum`
(ipVcycle.cc line 358), `wxh - 1` computed in `int` arithmetic. -/
noncomputable def varDenom (hgt wdt : ℕ) : ℝ :=
  ((hgt * wdt : ℕ) : ℝ) - 1

/-- The sample variance of `ipVcycle::cutExtremum` (ipVcycle.cc lines
349-358): sum of squared deviations from the mean, divided by `wxh - 1`. -/
noncomputable def varOf (hgt wdt : ℕ) (f : ℕ → ℕ → ℝ) : ℝ :=
  (Finset.sum (Finset.range hgt) fun y => Finset.sum (Finset.range wdt) fun x =>
    (f y x - meanOf hgt wdt f) * (f y x - meanOf hgt wdt f)) / varDenom hgt wdt

/-- The standard deviation `std_dev = sqrt(var_out)` of `ipVcycle::cutExtremum`. -/
noncomputable def stdOf (hgt wdt : ℕ) (f : ℕ → ℕ → ℝ) : ℝ :=
  Real.sqrt (varOf hgt wdt f)

/-- The first clipping test of `ipVcycle::cutExtremum` (lines 370-371): values
above `mean + d·std` are replaced by that bound. -/
noncomputable def cutHigh (hi v : ℝ) : ℝ := if v > hi then hi else v

/-- The second clipping test of `ipVcycle::cutExtremum` (lines 373-374): values
below `mean - d·std` are replaced by that bound. -/
noncomputable def cutLow (lo v : ℝ) : ℝ := if v < lo then lo else v

/-- Embeds `ipVcycle::cutExtremum(data, distribution_width, p)` (ipVcycle.cc
lines 319-379): compute mean and sample standard deviation of the field, then
clamp every pixel into `[mean - k·std, mean + k·std]`, where `k` is the
`distribution_width` argument (4 at the call site, line 161). -/
noncomputable def cutExtremum (hgt wdt k : ℕ) (f : ℕ → ℕ → ℝ) : ℕ → ℕ → ℝ :=
  fun y x =>
    if y < hgt ∧ x < wdt then
      cutLow (meanOf hgt wdt f - k * stdOf hgt wdt f)
        (cutHigh (meanOf hgt wdt f + k * stdOf hgt wdt f) (f y x))
    else f y x

/-- An all-zero tensor, as produced by `fill(0.)`. -/
def zeroT (hgt wdt : ℕ) : DoubleTensor := ⟨hgt, wdt, fun _ _ => 0⟩

/-- An all-one tensor. -/
def onesT (hgt wdt : ℕ) : DoubleTensor := ⟨hgt, wdt, fun _ _ => 1⟩

/-!  ## Theorems  -/

/-- C1: the terminal branch claims to force every boundary pixel to 0 for
images of any height and width, but the source loop tests
`y == width - 1` instead of `y == height - 1` (ipVcycle.cc line 234).  On a
2×4 grid (height 2, width 4) of all ones, pixel `(1, 1)` lies on the last
row — a boundary pixel — yet the loop leaves it at 1. -/
theorem c1_last_row_not_zeroed :
    setBoundaryZero 2 4 (fun _ _ => (1 : ℚ)) (2 - 1) 1 = 1 ∧ (1 : ℚ) ≠ 0 := by
  constructor
  · decide
  · decide

/-- C3: a 3-channel input is claimed to be rejected before any grid work, but
on a fresh instance (`m_output == 0`) `allocateOutput` takes the allocation
branch and returns `true` without any channel test, so the entry point
accepts a 4×4×3 Short tensor and grid work begins.  The misplaced channel
test fires only when the existing output already matches the input sizes, as
the second conjunct shows. -/
theorem c3_multichannel_accepted_on_fresh_instance :
    vcycleAccepts none ⟨3, DType.short, 4, 4, 3⟩ = true ∧
    vcycleAccepts (some ⟨3, DType.short, 4, 4, 3⟩) ⟨3, DType.short, 4, 4, 3⟩ = false := by
  constructor
  · decide
  · decide

/-- C10: in `cutExtremum` the mean is divided by `wxh` and the variance by
`wxh - 1`; whenever the field has at least 2 pixels both denominators are
nonzero, the entry point performs no minimum-size check (it accepts a 1×1×1
input), and at `wxh = 1` the variance denominator is exactly 0, so
`wxh ≥ 2` is a genuine precondition. -/
theorem c10_variance_denominators :
    (∀ hgt wdt : ℕ, 2 ≤ hgt * wdt →
      ((hgt * wdt : ℕ) : ℝ) ≠ 0 ∧ varDenom hgt wdt ≠ 0) ∧
    vcycleAccepts none ⟨3, DType.short, 1, 1, 1⟩ = true ∧
    varDenom 1 1 = 0 := by
  refine ⟨fun hgt wdt h2 => ⟨?_, ?_⟩, by decide, by norm_num [varDenom]⟩
  · have h0 : 0 < hgt * wdt := by omega
    exact_mod_cast h0.ne'
  · unfold varDenom
    have h2r : (2 : ℝ) ≤ ((hgt * wdt : ℕ) : ℝ) := by exact_mod_cast h2
    linarith

/-- C10 witness: a 2×2 field satisfies the precondition and both denominators
are nonzero. -/
theorem c10_variance_denominators_witness :
    ((2 * 2 : ℕ) : ℝ) ≠ 0 ∧ varDenom 2 2 ≠ 0 :=
  c10_variance_denominators.1 2 2 (by decide)

/-- C5: for every in-range pixel of the reflectance field: on the image
border the pre-rescale reflectance is 1; off the border it is 1 when the
solved light value is within the epsilon tolerance 1/100 of zero, and
`image / light` otherwise — so the division only happens with
`|light| > 1/100`. -/
theorem c5_reflectance_pointwise (height width : ℕ) (image light : ℕ → ℕ → ℚ)
    (y x : ℕ) (hy : y < height) (hx : x < width) :
    ((y = 0 ∨ y = height - 1 ∨ x = 0 ∨ x = width - 1) →
      buildReflectance height width image light y x = 1) ∧
    (¬(y = 0 ∨ y = height - 1 ∨ x = 0 ∨ x = width - 1) →
      (|light y x| ≤ 1 / 100 → buildReflectance height width image light y x = 1) ∧
      (1 / 100 < |light y x| →
        buildReflectance height width image light y x = image y x / light y x)) := by
  unfold buildReflectance
  refine ⟨fun hb => by rw [if_pos hb], fun hb => ⟨fun hnear => ?_, fun hfar => ?_⟩⟩
  · rw [if_neg hb, if_pos (by simpa using hnear)]
  · rw [if_neg hb, if_neg (by simpa using not_le.mpr hfar)]

/-- C5 witness: at the interior pixel (1,1) of a 3×3 image with light 1 and
image value 2, the instantiated theorem yields reflectance behaviour at a
concrete pixel. -/
theorem c5_reflectance_pointwise_witness :
    (((1 : ℕ) = 0 ∨ (1 : ℕ) = 3 - 1 ∨ (1 : ℕ) = 0 ∨ (1 : ℕ) = 3 - 1) →
      buildReflectance 3 3 (fun _ _ => 2) (fun _ _ => 1) 1 1 = 1) ∧
    (¬((1 : ℕ) = 0 ∨ (1 : ℕ) = 3 - 1 ∨ (1 : ℕ) = 0 ∨ (1 : ℕ) = 3 - 1) →
      (|(fun _ _ => (1 : ℚ)) 1 1| ≤ 1 / 100 →
        buildReflectance 3 3 (fun _ _ => 2) (fun _ _ => 1) 1 1 = 1) ∧
      (1 / 100 < |(fun _ _ => (1 : ℚ)) 1 1| →
        buildReflectance 3 3 (fun _ _ => 2) (fun _ _ => 1) 1 1 =
          (fun _ _ => (2 : ℚ)) 1 1 / (fun _ _ => (1 : ℚ)) 1 1)) :=
  c5_reflectance_pointwise 3 3 (fun _ _ => 2) (fun _ _ => 1) 1 1 (by decide) (by decide)

/-- C4 (amended): after the clipping step with `k = 4`, every in-range value
lies within `[mean - 4·std, mean + 4·std]`, where mean and sample standard
deviation are those `cutExtremum` computed on the field before clipping. -/
theorem c4_clip_within_preclip_bounds (hgt wdt : ℕ) (f : ℕ → ℕ → ℝ) (y x : ℕ)
    (hy : y < hgt) (hx : x < wdt) :
    meanOf hgt wdt f - 4 * stdOf hgt wdt f ≤ cutExtremum hgt wdt 4 f y x ∧
    cutExtremum hgt wdt 4 f y x ≤ meanOf hgt wdt f + 4 * stdOf hgt wdt f := by
  have hs : 0 ≤ stdOf hgt wdt f := Real.sqrt_nonneg _
  unfold cutExtremum cutLow cutHigh
  rw [if_pos ⟨hy, hx⟩]
  have hc : ((4 : ℕ) : ℝ) = (4 : ℝ) := by norm_num
  rw [hc]
  split_ifs <;> constructor <;> linarith

/-- C4 witness: the single pixel of a constant 1×1 field stays within the
pre-clip bounds. -/
theorem c4_clip_within_preclip_bounds_witness :
    meanOf 1 1 (fun _ _ => 5) - 4 * stdOf 1 1 (fun _ _ => 5) ≤
      cutExtremum 1 1 4 (fun _ _ => 5) 0 0 ∧
    cutExtremum 1 1 4 (fun _ _ => 5) 0 0 ≤
      meanOf 1 1 (fun _ _ => 5) + 4 * stdOf 1 1 (fun _ _ => 5) :=
  c4_clip_within_preclip_bounds 1 1 (fun _ _ => 5) 0 0 (by decide) (by decide)

/-- C2: whenever the instance dimension fields match the right-hand side on
entry (as they do at every call site: `processInput` sets them from the input
image and the recursion passes the halved fields alongside the equally halved
restricted residual), the field returned by `mgv` has exactly the height and
width of `rhs`. -/
theorem c2_mgv_result_dims (n : ℕ) (x b : DoubleTensor) (lam : ℚ) (level : ℕ)
    (st : VState) (hh : st.h = b.h) (hw : st.w = b.w) :
    (mgv n x b lam level st).map (fun p => (p.1.h, p.1.w)) =
      (mgv n x b lam level st).map (fun _ => (b.h, b.w)) := by
  unfold mgv
  cases hg : n - 1 - level with
  | zero =>
    simp only [mgvGas, hh, hw]
    split_ifs
    · rfl
    · rfl
  | succ g =>
    simp only [mgvGas]
    cases hsub : mgvGas g ⟨st.h / 2, st.w / 2, fun _ _ => 0⟩
        ⟨st.h / 2, st.w / 2,
          restriction st.h st.w
            (fun y c =>
              if y < b.h ∧ c < b.w then
                b.data y c - myMultiply x.h x.w lam (gaussSeidel x.h x.w x.data b.data lam) y c
              else myMultiply x.h x.w lam (gaussSeidel x.h x.w x.data b.data lam) y c)⟩
        lam ⟨st.h / 2, st.w / 2⟩ with
    | error e => rfl
    | ok p => simp [Except.map, hh, hw]

lemma pow_dvd_half {g m : ℕ} (h : 2 ^ (g + 1) ∣ m) : 2 ^ g ∣ m / 2 := by
  obtain ⟨k, hk⟩ := h
  subst hk
  have he : 2 ^ (g + 1) * k = 2 * (2 ^ g * k) := by ring
  rw [he, Nat.mul_div_cancel_left _ (by norm_num)]
  exact Dvd.intro k rfl

lemma two_dvd_of_pow_succ {g m : ℕ} (h : 2 ^ (g + 1) ∣ m) : 2 ∣ m :=
  dvd_trans ⟨2 ^ g, by ring⟩ h

/-- Helper: whenever the dimensions held in the instance state are divisible
by 2 for as many coarsening steps as remain, every normal return of `mgvGas`
restores the state to its entry value (halving before the recursive call is
undone by the doubling after it). -/
lemma mgvGas_state_restore :
    ∀ (gas : ℕ) (x b : DoubleTensor) (lam : ℚ) (st : VState),
      2 ^ gas ∣ st.h → 2 ^ gas ∣ st.w →
      ∀ f st', mgvGas gas x b lam st = Except.ok (f, st') → st' = st := by
  intro gas
  induction gas with
  | zero =>
    intro x b lam st _ _ f st' h
    simp only [mgvGas] at h
    split_ifs at h
    obtain ⟨-, h2⟩ := Prod.mk.injEq .. ▸ Except.ok.inj h
    exact h2.symm
  | succ g ih =>
    intro x b lam st hh hw f st' h
    simp only [mgvGas] at h
    cases hsub : mgvGas g ⟨st.h / 2, st.w / 2, fun _ _ => 0⟩
        ⟨st.h / 2, st.w / 2,
          restriction st.h st.w
            (fun y c =>
              if y < b.h ∧ c < b.w then
                b.data y c - myMultiply x.h x.w lam (gaussSeidel x.h x.w x.data b.data lam) y c
              else myMultiply x.h x.w lam (gaussSeidel x.h x.w x.data b.data lam) y c)⟩
        lam ⟨st.h / 2, st.w / 2⟩ with
    | error e => rw [hsub] at h; exact absurd h (by simp)
    | ok p =>
      rw [hsub] at h
      obtain ⟨xhat, st2⟩ := p
      have hst2 : st2 = ⟨st.h / 2, st.w / 2⟩ :=
        ih _ _ _ ⟨st.h / 2, st.w / 2⟩ (pow_dvd_half hh) (pow_dvd_half hw) xhat st2 hsub
      obtain ⟨-, h2⟩ := Prod.mk.injEq .. ▸ Except.ok.inj h
      rw [← h2, hst2]
      have hhh : st.h / 2 * 2 = st.h := Nat.div_mul_cancel (two_dvd_of_pow_succ hh)
      have hww : st.w / 2 * 2 = st.w := Nat.div_mul_cancel (two_dvd_of_pow_succ hw)
      cases st
      simp only at hhh hww
      simp [hhh, hww]

/-- C9 (amended): whenever the grid dimensions are divisible by 2 for every
coarsening step that remains below the current level — the spec's §3
divisibility invariant — every normal return of `mgv` leaves the instance
fields `width_` and `height_` exactly as they were on entry: they are halved
immediately before the recursive call and doubled back immediately after.
For dimensions violating the invariant the integer halving loses the odd
remainder and the claim fails (see the counterexample). -/
theorem c9_state_restored (n : ℕ) (x b : DoubleTensor) (lam : ℚ) (level : ℕ)
    (st : VState) (hh : 2 ^ (n - 1 - level) ∣ st.h) (hw : 2 ^ (n - 1 - level) ∣ st.w) :
    (mgv n x b lam level st).map (fun p => p.2) =
      (mgv n x b lam level st).map (fun _ => st) := by
  unfold mgv
  cases hr : mgvGas (n - 1 - level) x b lam st with
  | error e => rfl
  | ok p =>
    obtain ⟨f, st'⟩ := p
    have h2 := mgvGas_state_restore (n - 1 - level) x b lam st hh hw f st' hr
    rw [h2]
    rfl

/-- C9 witness: on a 4×4 grid with two levels the divisibility invariant
holds and the state is restored. -/
theorem c9_state_restored_witness :
    (2 ^ (2 - 1 - 0) ∣ (⟨4, 4⟩ : VState).h) ∧
    (mgv 2 (zeroT 4 4) (onesT 4 4) 5 0 ⟨4, 4⟩).map (fun p => p.2) =
      (mgv 2 (zeroT 4 4) (onesT 4 4) 5 0 ⟨4, 4⟩).map (fun _ => (⟨4, 4⟩ : VState)) :=
  ⟨by decide, c9_state_restored 2 (zeroT 4 4) (onesT 4 4) 5 0 ⟨4, 4⟩ (by decide) (by decide)⟩

/-- C9 counterexample: on a 3×3 image with `n_grids = 2` the call returns
normally, but the dimension fields come back as 2×2, not 3×3: halving 3 gives
1 and doubling gives 2, so the entry values are not restored and the claim as
stated is false. -/
theorem c9_state_not_restored_on_odd_grid :
    ¬ ((mgv 2 (zeroT 3 3) (onesT 3 3) 5 0 ⟨3, 3⟩).map (fun p => p.2) =
        (mgv 2 (zeroT 3 3) (onesT 3 3) 5 0 ⟨3, 3⟩).map (fun _ => (⟨3, 3⟩ : VState))) := by
  with_unfolding_all decide

/-- C8: a V-cycle invocation signals the fatal error exactly when the
coarsest-level dense solve reports a nonzero `dgesv_` status; every other
numerical step (smoothing, residual, transfer, multiply) is a total function
and cannot fail, and there is no retry or fallback — the error propagates
unchanged through every level. -/
theorem c8_error_iff_singular_solve (n : ℕ) (x b : DoubleTensor) (lam : ℚ)
    (level : ℕ) (st : VState) :
    (∃ e, mgv n x b lam level st = Except.error e) ↔
      coarseInfo n x b lam level st ≠ 0 := by
  unfold mgv coarseInfo
  generalize n - 1 - level = gas
  induction gas generalizing x b st with
  | zero =>
    simp only [mgvGas, coarseInfoGas]
    split_ifs with h
    · exact iff_of_true ⟨SolveErr.singular, rfl⟩ h
    · exact iff_of_false (by simp) h
  | succ g ih =>
    simp only [mgvGas, coarseInfoGas]
    cases hsub : mgvGas g ⟨st.h / 2, st.w / 2, fun _ _ => 0⟩
        ⟨st.h / 2, st.w / 2,
          restriction st.h st.w
            (fun y c =>
              if y < b.h ∧ c < b.w then
                b.data y c - myMultiply x.h x.w lam (gaussSeidel x.h x.w x.data b.data lam) y c
              else myMultiply x.h x.w lam (gaussSeidel x.h x.w x.data b.data lam) y c)⟩
        lam ⟨st.h / 2, st.w / 2⟩ with
    | error e =>
      exact iff_of_true ⟨e, rfl⟩ ((ih _ _ ⟨st.h / 2, st.w / 2⟩).mp ⟨e, hsub⟩)
    | ok p =>
      obtain ⟨f, st2⟩ := p
      refine iff_of_false (by simp) (fun hc => ?_)
      obtain ⟨e, he⟩ := (ih _ _ ⟨st.h / 2, st.w / 2⟩).mpr hc
      rw [hsub] at he
      exact Except.noConfusion he

/-- C6: in the recursive (non-coarsest) case, under the call-site invariants
(instance dimension fields matching `rhs`, guess dimensions matching `rhs`)
and the spec's §3 divisibility invariant, `mgv` computes exactly the
spec's eight-step pipeline: pre-smooth the guess against `rhs`; residual =
`rhs` minus the matrix-free operator applied to the smoothed guess; restrict
to half width and half height; recurse on a zero guess at `level + 1`;
prolong the coarse correction; add it to the pre-smoothed guess; post-smooth
against `rhs`; return the result. -/
theorem c6_recursive_case_follows_spec (n : ℕ) (x b : DoubleTensor) (lam : ℚ)
    (level : ℕ) (st : VState) (hlv : level + 1 < n)
    (hst : st = ⟨b.h, b.w⟩) (hxh : x.h = b.h) (hxw : x.w = b.w)
    (hdh : 2 ^ (n - 1 - level) ∣ b.h) (hdw : 2 ^ (n - 1 - level) ∣ b.w) :
    (mgv n x b lam level st).map (fun p => p.1) = specVcycleRecursive n x b lam level := by
  obtain ⟨g, hg1, hg2⟩ : ∃ g, n - 1 - level = g + 1 ∧ n - 1 - (level + 1) = g :=
    ⟨n - level - 2, by omega, by omega⟩
  subst hst
  unfold specVcycleRecursive mgv
  rw [hg1, hg2]
  have hdh' : 2 ^ (g + 1) ∣ b.h := hg1 ▸ hdh
  have hdw' : 2 ^ (g + 1) ∣ b.w := hg1 ▸ hdw
  have e1 : b.h / 2 * 2 = b.h := Nat.div_mul_cancel (two_dvd_of_pow_succ hdh')
  have e2 : b.w / 2 * 2 = b.w := Nat.div_mul_cancel (two_dvd_of_pow_succ hdw')
  simp only [mgvGas, hxh, hxw]
  cases hsub : mgvGas g ⟨b.h / 2, b.w / 2, fun _ _ => 0⟩
      ⟨b.h / 2, b.w / 2,
        restriction b.h b.w
          (fun y c =>
            if y < b.h ∧ c < b.w then
              b.data y c - myMultiply b.h b.w lam (gaussSeidel b.h b.w x.data b.data lam) y c
            else myMultiply b.h b.w lam (gaussSeidel b.h b.w x.data b.data lam) y c)⟩
      lam ⟨b.h / 2, b.w / 2⟩ with
  | error e => rfl
  | ok p =>
    obtain ⟨xhat, st2⟩ := p
    have hst2 : st2 = ⟨b.h / 2, b.w / 2⟩ :=
      mgvGas_state_restore g _ _ lam ⟨b.h / 2, b.w / 2⟩
        (pow_dvd_half hdh') (pow_dvd_half hdw') xhat st2 hsub
    rw [hst2]
    simp only [Except.map, e1, e2]

/-- C6 witness: a two-level solve on a 4×4 all-ones image at level 0 satisfies
every hypothesis, so the code path equals the spec pipeline there. -/
theorem c6_recursive_case_follows_spec_witness :
    (0 + 1 < 2) ∧
    (mgv 2 (zeroT 4 4) (onesT 4 4) 5 0 ⟨4, 4⟩).map (fun p => p.1) =
      specVcycleRecursive 2 (zeroT 4 4) (onesT 4 4) 5 0 :=
  ⟨by decide,
    c6_recursive_case_follows_spec 2 (zeroT 4 4) (onesT 4 4) 5 0 ⟨4, 4⟩
      (by decide) rfl rfl rfl (by decide) (by decide)⟩

/-- C7: with `n_grids = 1` the controller takes the terminal branch at level
0, but its result is not the claimed "direct solve with boundary pixels
forced to 0": on a 2×3 all-ones image (whose assembled operator is the
identity, every pixel being in a boundary row) the code leaves pixel (1,1) —
on the last row — at the raw solve value 1, while the direct solve with
boundary forced to 0 gives 0 there, because the terminal loop compares
`y == width-1` instead of `y == height-1`. -/
theorem c7_single_grid_differs_from_direct_solve_on_nonsquare :
    (mgv 1 (zeroT 2 3) (onesT 2 3) 5 0 ⟨2, 3⟩).map (fun p => p.1.data 1 1) =
      Except.ok 1 ∧
    (specDirectSolve (onesT 2 3) 5).map (fun f => f.data 1 1) = Except.ok 0 := by
  constructor
  · with_unfolding_all decide
  · with_unfolding_all decide

/-- The 1×25 spike field used as the C4 counterexample input: 25 at pixel
(0,0), 0 elsewhere.  Its pre-clip mean is 1, sample variance 25, std 5, so
the clip bounds are [-19, 21] and the spike is clamped to 21. -/
noncomputable def spike25 : ℕ → ℕ → ℝ := fun _ x => if x = 0 then 25 else 0

/-- C4 counterexample: on the clipped 1×25 spike field the clipped value 21 at
pixel (0,0) does NOT lie within `[mean - 4·std, mean + 4·std]` of the clipped
field itself (post-clip mean 21/25 and std 21/5 give the upper bound
441/25 = 17.64 < 21): the invariant only holds for the statistics of the
field before clipping. -/
theorem c4_not_within_postclip_bounds :
    ¬ (meanOf 1 25 (cutExtremum 1 25 4 spike25) - 4 * stdOf 1 25 (cutExtremum 1 25 4 spike25) ≤
        cutExtremum 1 25 4 spike25 0 0 ∧
       cutExtremum 1 25 4 spike25 0 0 ≤
        meanOf 1 25 (cutExtremum 1 25 4 spike25) + 4 * stdOf 1 25 (cutExtremum 1 25 4 spike25)) := by
  have hsum0 : (Finset.sum (Finset.range 1) fun y =>
      Finset.sum (Finset.range 25) fun x => spike25 y x) = 25 := by
    simp [spike25, Finset.sum_range_succ]
  have hmean : meanOf 1 25 spike25 = 1 := by
    unfold meanOf
    rw [hsum0]
    norm_num
  have hvar : varOf 1 25 spike25 = 25 := by
    unfold varOf varDenom
    simp only [hmean]
    simp [spike25, Finset.sum_range_succ]
    norm_num
  have hstd : stdOf 1 25 spike25 = 5 := by
    unfold stdOf
    rw [hvar, show (25 : ℝ) = 5 ^ 2 by norm_num, Real.sqrt_sq (by norm_num : (0:ℝ) ≤ 5)]
  have hg : ∀ xx : ℕ, cutExtremum 1 25 4 spike25 0 xx =
      if xx = 0 then 21 else if xx < 25 then 0 else spike25 0 xx := by
    intro xx
    unfold cutExtremum cutLow cutHigh
    simp only [hmean, hstd]
    by_cases hxx : xx = 0
    · subst hxx
      rw [if_pos ⟨by norm_num, by norm_num⟩, if_pos rfl]
      rw [show spike25 0 0 = 25 from by simp [spike25]]
      norm_num
    · by_cases hlt : xx < 25
      · rw [if_pos ⟨by norm_num, hlt⟩, if_neg hxx, if_pos hlt]
        rw [show spike25 0 xx = 0 from by simp [spike25, hxx]]
        norm_num
      · rw [if_neg (by push_neg; intro; omega), if_neg hxx, if_neg hlt]
  have hsumg : (Finset.sum (Finset.range 1) fun y =>
      Finset.sum (Finset.range 25) fun x => cutExtremum 1 25 4 spike25 y x) = 21 := by
    rw [Finset.sum_range_one]
    simp only [hg]
    simp [Finset.sum_range_succ]
  have hmeang : meanOf 1 25 (cutExtremum 1 25 4 spike25) = 21 / 25 := by
    unfold meanOf
    rw [hsumg]
    norm_num
  have hvarg : varOf 1 25 (cutExtremum 1 25 4 spike25) = 441 / 25 := by
    unfold varOf varDenom
    simp only [hmeang, Finset.sum_range_one]
    simp only [hg]
    simp [Finset.sum_range_succ]
    norm_num
  have hstdg : stdOf 1 25 (cutExtremum 1 25 4 spike25) = 21 / 5 := by
    unfold stdOf
    rw [hvarg, show (441 : ℝ) / 25 = (21 / 5) ^ 2 by norm_num,
      Real.sqrt_sq (by norm_num : (0:ℝ) ≤ 21 / 5)]
  intro hcontra
  obtain ⟨-, hupper⟩ := hcontra
  rw [hmeang, hstdg, hg 0] at hupper
  norm_num at hupper

/-- C2 witness: a 2×2 all-ones right-hand side with matching state yields a
2×2 result. -/
theorem c2_mgv_result_dims_witness :
    (mgv 1 (zeroT 2 2) (onesT 2 2) 5 0 ⟨2, 2⟩).map (fun p => (p.1.h, p.1.w)) =
      (mgv 1 (zeroT 2 2) (onesT 2 2) 5 0 ⟨2, 2⟩).map (fun _ => ((onesT 2 2).h, (onesT 2 2).w)) :=
  c2_mgv_result_dims 1 (zeroT 2 2) (onesT 2 2) 5 0 ⟨2, 2⟩ rfl rfl
